import Mathlib

/-!
Verification of the streaming text-generation core of `src/app/models.py`
(`LlamaCPPModel`): the UTF-8 byte reassembler (`_utf8_is_continuation_byte`,
`_utf8_split_incomplete`), the stop matcher (the regex full-match check and
the longest-stop-prefix withholding scan) and the generation session loop
(`_generate_text`).

Python strings are modelled as `List Char` (sequences of Unicode code
points), byte strings as `List Nat`, and the opaque underlying model as a
stream of sampled-token observations: each sampled token is either an
end-of-sequence token or a token whose `detokenize` result is a given byte
chunk.  The generator is modelled as a function from such a stream to the
list of yielded `(text, finish_reason)` pairs together with a flag telling
whether the loop terminated (broke out) within the given stream.
-/

namespace Aipi

abbrev Str := List Char

/-! ## Byte reassembler (`_utf8_is_continuation_byte`, `_utf8_split_incomplete`) -/

/-- `_utf8_is_continuation_byte`: `(byte & 0b10000000) != 0`. -/
def utf8_is_continuation_byte (b : Nat) : Bool := (b &&& 128) != 0

/-- The backward scan of `_utf8_split_incomplete`:
`i = len(seq); while i > 0 and is_cont(seq[i-1]): i -= 1`. -/
def splitIdx (seq : List Nat) : Nat → Nat
  | 0 => 0
  | i + 1 => if utf8_is_continuation_byte (seq.getD i 0) then splitIdx seq i else i + 1

/-- `_utf8_split_incomplete`: `return seq[:i], seq[i:]`. -/
def utf8_split_incomplete (seq : List Nat) : List Nat × List Nat :=
  (seq.take (splitIdx seq seq.length), seq.drop (splitIdx seq seq.length))

/-- Feeding a sequence of raw byte chunks one at a time through the split
step, each chunk appended to the pending bytes left by the previous step
(mirrors `incomplete += detokenize(...); complete, incomplete = split(...)`
across loop iterations, projected onto the byte level). -/
def pushAll (pending : List Nat) : List (List Nat) → List (List Nat) × List Nat
  | [] => ([], pending)
  | c :: cs =>
    let pr := utf8_split_incomplete (pending ++ c)
    let rest := pushAll pr.2 cs
    (pr.1 :: rest.1, rest.2)

/-- Concatenation of a list of byte chunks. -/
def concatBytes (l : List (List Nat)) : List Nat := l.foldr (fun a b => a ++ b) []

/-! ## UTF-8 decoding with `errors='ignore'`

Model of `bytes.decode('utf-8', errors='ignore')`: a standard UTF-8
decoder; on an ill-formed subsequence the maximal subpart (the longest
prefix of a well-formed sequence) is skipped and nothing is emitted for it,
matching CPython's decoder with the `ignore` error handler. -/

/-- Lower bound for the valid second byte after a given lead byte. -/
def utf8SecondLo (b : Nat) : Nat := if b = 0xE0 then 0xA0 else if b = 0xF0 then 0x90 else 0x80

/-- Upper bound for the valid second byte after a given lead byte. -/
def utf8SecondHi (b : Nat) : Nat := if b = 0xED then 0x9F else if b = 0xF4 then 0x8F else 0xBF

/-- Decode one scalar value from the head of the byte list.  Returns the
decoded character (or `none` when the head is an ill-formed or truncated
subsequence, which the `ignore` handler drops) and the number of bytes
consumed: the scalar's bytes on success, otherwise the maximal subpart
skipped (always at least 1 on nonempty input). -/
def utf8Step : List Nat → Option Char × Nat
  | [] => (none, 0)
  | b :: rest =>
    if b ≤ 0x7F then (some (Char.ofNat b), 1)
    else if 0xC2 ≤ b ∧ b ≤ 0xDF then
      match rest with
      | [] => (none, 1)
      | b2 :: _ =>
        if 0x80 ≤ b2 ∧ b2 ≤ 0xBF then
          (some (Char.ofNat ((b - 0xC0) * 64 + (b2 - 0x80))), 2)
        else (none, 1)
    else if 0xE0 ≤ b ∧ b ≤ 0xEF then
      match rest with
      | [] => (none, 1)
      | b2 :: rest2 =>
        if utf8SecondLo b ≤ b2 ∧ b2 ≤ utf8SecondHi b then
          match rest2 with
          | [] => (none, 2)
          | b3 :: _ =>
            if 0x80 ≤ b3 ∧ b3 ≤ 0xBF then
              (some (Char.ofNat ((b - 0xE0) * 4096 + (b2 - 0x80) * 64 + (b3 - 0x80))), 3)
            else (none, 2)
        else (none, 1)
    else if 0xF0 ≤ b ∧ b ≤ 0xF4 then
      match rest with
      | [] => (none, 1)
      | b2 :: rest2 =>
        if utf8SecondLo b ≤ b2 ∧ b2 ≤ utf8SecondHi b then
          match rest2 with
          | [] => (none, 2)
          | b3 :: rest3 =>
            if 0x80 ≤ b3 ∧ b3 ≤ 0xBF then
              match rest3 with
              | [] => (none, 3)
              | b4 :: _ =>
                if 0x80 ≤ b4 ∧ b4 ≤ 0xBF then
                  (some (Char.ofNat ((b - 0xF0) * 262144 + (b2 - 0x80) * 4096 +
                      (b3 - 0x80) * 64 + (b4 - 0x80))), 4)
                else (none, 3)
            else (none, 2)
        else (none, 1)
    else (none, 1)

/-- Decoding loop: each step consumes at least one byte, so a fuel equal to
the list length always suffices. -/
def utf8DecodeIgnoreAux : Nat → List Nat → Str
  | 0, _ => []
  | _ + 1, [] => []
  | fuel + 1, b :: rest =>
    let s := utf8Step (b :: rest)
    (match s.1 with
      | some c => [c]
      | none => []) ++ utf8DecodeIgnoreAux fuel ((b :: rest).drop (max 1 s.2))

def utf8DecodeIgnore (l : List Nat) : Str := utf8DecodeIgnoreAux l.length l

/-! ## Stop matcher -/

/-- Some stop string starts at position `p` of `text` (one alternative of the
regex `re.compile("|".join(map(re.escape, stops)))` matches there). -/
def occursAt (stops : List Str) (text : Str) (p : Nat) : Bool :=
  stops.any (fun s => s.isPrefixOf (text.drop p))

/-- The regex engine's scan: try positions `p, p+1, ...` left to right,
`fuel` positions in total, and return the first position where some
alternative matches. -/
def searchAux (stops : List Str) (text : Str) : Nat → Nat → Option Nat
  | 0, _ => none
  | fuel + 1, p => if occursAt stops text p then some p else searchAux stops text fuel (p + 1)

/-- `stop_regex.search(text)`, reduced to the datum the loop uses:
`match.start()`, the start of the leftmost match, if any. -/
def stopMatchStart (stops : List Str) (text : Str) : Option Nat :=
  searchAux stops text (text.length + 1) 0

/-- Lines 128-129: the search is only performed `if stops:`. -/
def fullMatch (stops : List Str) (text : Str) : Option Nat :=
  if stops.isEmpty then none else stopMatchStart stops text

/-- Lines 138-141, the inner loop for one stop:
`for i in range(len(stop), 0, -1): if text.endswith(stop[:i]): ...; break`.
`longestForStop stop text n` scans `i = n, n-1, ..., 1` and returns the
first (hence largest) `i` with `text.endswith(stop[:i])`, else `0`. -/
def longestForStop (stop text : Str) : Nat → Nat
  | 0 => 0
  | i + 1 => if (stop.take (i + 1)).isSuffixOf text then i + 1 else longestForStop stop text i

/-- Lines 136-141: `longest = 0; for stop in stops: ... longest = max(longest, i)`. -/
def longestStopPrefixLen (stops : List Str) (text : Str) : Nat :=
  stops.foldl (fun longest stop => max longest (longestForStop stop text stop.length)) 0

/-! ## Generation session (`_generate_text`) -/

/-- One sampled token, as observed by the loop: either the end-of-sequence
token, or a token whose `detokenize([token], decode=False)` is `bs`. -/
inductive Tok where
  | eos : Tok
  | tok : List Nat → Tok
deriving DecidableEq

/-- The loop state carried across iterations: `count`, `text`, `incomplete`. -/
structure GState where
  count : Nat
  text : Str
  incomplete : List Nat
deriving DecidableEq

/-- A yielded `(text-chunk, finish_reason)` pair. -/
abbrev Chunk := Str × Option String

/-- `if max_tokens and count >= max_tokens:` — Python truthiness of
`max_tokens` (`None` and `0` are falsy) followed by the integer comparison. -/
def maxTokensHit (maxTokens : Option Int) (count : Nat) : Bool :=
  match maxTokens with
  | none => false
  | some v => v != 0 && decide (v ≤ (count : Int))

/-- Result of one loop iteration: either the loop continues with a new
state, or it breaks, after which `yield text, finish_reason` produces the
final chunk `(finalText, reason)`. -/
inductive StepOut where
  | next (s : GState)
  | finished (finalText : Str) (reason : String)
deriving DecidableEq

/-- The accumulated text right after lines 123-126 of one iteration:
previous `text` plus the decoded complete part of `incomplete ++ bs`. -/
def stepText (s : GState) (bs : List Nat) : Str :=
  s.text ++ utf8DecodeIgnore (utf8_split_incomplete (s.incomplete ++ bs)).1

/-- Lines 136-148: compute `longest` and `end`; when `end > 0`, yield
`text[:end]` (with `finish_reason` still `None`) and keep `text[end:]`,
otherwise yield nothing and keep `text` unchanged.  Returns the chunks
yielded and the kept text. -/
def stepEmit (stops : List Str) (text : Str) : List Chunk × Str :=
  let e := text.length - longestStopPrefixLen stops text
  if 0 < e then ([(text.take e, none)], text.drop e) else ([], text)

/-- One iteration of the `while True:` loop of `_generate_text` (lines
110-155), given the sampled token's observation.  Returns the chunks
yielded inside the loop body during this iteration (each paired with the
current `finish_reason`, which is still `None` there) and either the next
state or the break with the final `text` and `finish_reason`. -/
def step (stops : List Str) (maxTokens : Option Int) (s : GState) (t : Tok) :
    List Chunk × StepOut :=
  match t with
  | .eos => ([], .finished s.text "stop")
  | .tok bs =>
    let incomplete := (utf8_split_incomplete (s.incomplete ++ bs)).2
    let text := stepText s bs
    match fullMatch stops text with
    | some p => ([], .finished (text.take p) "stop")
    | none =>
      let ek := stepEmit stops text
      let count := s.count + 1
      if maxTokensHit maxTokens count then
        (ek.1, .finished ek.2 "length")
      else
        (ek.1, .next ⟨count, ek.2, incomplete⟩)

/-- Running the loop over a finite stream of sampled-token observations
from state `s`.  Returns all yielded chunks (the final
`yield text, finish_reason` included when the loop breaks) and whether the
loop terminated within the stream (`false` means the stream was exhausted
with the loop still running, so no final chunk was yielded yet). -/
def runGen (stops : List Str) (maxTokens : Option Int) :
    GState → List Tok → List Chunk × Bool
  | _, [] => ([], false)
  | s, t :: ts =>
    match step stops maxTokens s t with
    | (cs, .next s') =>
      let r := runGen stops maxTokens s' ts
      (cs ++ r.1, r.2)
    | (cs, .finished ft reason) => (cs ++ [(ft, some reason)], true)

/-- `_generate_text` from its initial state:
`count = 0`, `text = ''`, `incomplete = b''`. -/
def generate (stops : List Str) (maxTokens : Option Int) (stream : List Tok) :
    List Chunk × Bool :=
  runGen stops maxTokens ⟨0, [], []⟩ stream

/-- Concatenation of the text parts of a list of yielded chunks. -/
def emitted (out : List Chunk) : Str :=
  out.foldr (fun c acc => c.1 ++ acc) []

/-! ## Spec-side definitions

These two definitions follow the words of the specification (section 4.2),
not the code, for the refinement claim C2: "the withheld suffix length is
the maximum such prefix length found across all stop strings and all
candidate lengths". -/

/-- Modelled from the spec's words: all candidate prefix lengths `i ≥ 1`
of `stop` such that `text` ends with the first `i` characters of `stop`. -/
def spec_matchLens (stop text : Str) : List Nat :=
  (List.range (stop.length + 1)).filter
    (fun i => decide (1 ≤ i) && (stop.take i).isSuffixOf text)

/-- Modelled from the spec's words: the maximum candidate prefix length
across all stop strings (0 when there is none). -/
def spec_withheldLen (stops : List Str) (text : Str) : Nat :=
  stops.foldl (fun m stop => (spec_matchLens stop text).foldl max m) 0

/-! ## Invariant vocabulary -/

/-- No configured stop string occurs as a substring of `u`. -/
def NoStopIn (stops : List Str) (u : Str) : Prop := ∀ s ∈ stops, ¬ s <:+: u

/-- Every pending partial stop match at the end of `E ++ T` (a nonempty
stop-string prefix that is a suffix of the whole emitted-plus-kept text)
lies entirely within the kept part `T`. -/
def TailSafe (stops : List Str) (E T : Str) : Prop :=
  ∀ s ∈ stops, ∀ i, 1 ≤ i → i ≤ s.length → s.take i <:+ E ++ T → i ≤ T.length

/-!
# Theorems
-/

/-! ## General list lemmas -/

theorem takePre (l : Str) (n : Nat) : l.take n <+: l :=
  ⟨l.drop n, List.take_append_drop n l⟩

theorem dropSuf (l : Str) (n : Nat) : l.drop n <:+ l :=
  ⟨l.take n, List.take_append_drop n l⟩

theorem preIffTake {a b : Str} : a <+: b ↔ a = b.take a.length := by
  constructor
  · rintro ⟨r, rfl⟩
    exact (List.take_left a r).symm
  · intro h
    rw [h]
    exact takePre b a.length

theorem sufIffDrop {a b : Str} : a <:+ b ↔ a = b.drop (b.length - a.length) := by
  constructor
  · rintro ⟨t, rfl⟩
    have : (t ++ a).length - a.length = t.length := by simp [List.length_append]
    rw [this, List.drop_left]
  · intro h
    rw [h]
    exact dropSuf b (b.length - a.length)

theorem preOfAppendLeft {x a b : Str} (h : x <+: a ++ b) (hle : x.length ≤ a.length) :
    x <+: a := by
  have hx := preIffTake.mp h
  rw [List.take_append_eq_append_take, Nat.sub_eq_zero_of_le hle, List.take_zero,
    List.append_nil] at hx
  exact preIffTake.mpr hx

theorem sufOfAppendRight {x a b : Str} (h : x <:+ a ++ b) (hle : x.length ≤ b.length) :
    x <:+ b := by
  have hx := sufIffDrop.mp h
  rw [List.length_append, List.drop_append_eq_append_drop] at hx
  have h1 : a.length + b.length - x.length - a.length = b.length - x.length := by omega
  have h2 : a.length + b.length - x.length ≤ a.length + (b.length - x.length) := by omega
  rw [List.drop_eq_nil_of_le (by omega), List.nil_append, h1] at hx
  rw [hx]
  exact dropSuf b (b.length - x.length)

theorem preTakeEq {s a b : Str} (h : s <+: a ++ b) (hle : a.length ≤ s.length) :
    s.take a.length = a := by
  have hx := preIffTake.mp h
  have : s.take a.length = ((a ++ b).take s.length).take a.length := by rw [← hx]
  rw [List.take_take, Nat.min_eq_left hle, List.take_append_eq_append_take,
    Nat.sub_self, List.take_zero, List.append_nil, List.take_length] at this
  exact this

theorem sufAppendTake {x u v : Str} (h : x <:+ u ++ v) (hle : v.length ≤ x.length) :
    x.take (x.length - v.length) <:+ u := by
  obtain ⟨w, hw⟩ := h
  have hlen : w.length + x.length = u.length + v.length := by
    have := congrArg List.length hw
    simpa [List.length_append] using this
  refine ⟨w, ?_⟩
  have h1 : (w ++ x).take u.length = u := by
    rw [hw, List.take_append_eq_append_take, Nat.sub_self, List.take_zero,
      List.append_nil, List.take_length]
  rw [List.take_append_eq_append_take, List.take_of_length_le (by omega)] at h1
  have h2 : u.length - w.length = x.length - v.length := by omega
  rw [h2] at h1
  exact h1

theorem preSufInf {s r u : Str} (h1 : s <+: r) (h2 : r <:+ u) : s <:+: u := by
  obtain ⟨a, rfl⟩ := h1
  obtain ⟨w, rfl⟩ := h2
  exact ⟨w, a, by rw [List.append_assoc]⟩

theorem infExtendRight {s a : Str} (h : s <:+: a) (b : Str) : s <:+: a ++ b := by
  obtain ⟨x, y, rfl⟩ := h
  exact ⟨x, y ++ b, by simp [List.append_assoc]⟩

theorem infixIffDropPre {s u : Str} : s <:+: u ↔ ∃ p, p ≤ u.length ∧ s <+: u.drop p := by
  constructor
  · rintro ⟨x, y, rfl⟩
    refine ⟨x.length, by simp [List.length_append], ?_⟩
    rw [List.append_assoc, List.drop_left]
    exact ⟨y, rfl⟩
  · rintro ⟨p, _, r, hr⟩
    exact ⟨u.take p, r, by rw [List.append_assoc, hr, List.take_append_drop]⟩

theorem preNil {a : Str} (h : a <+: []) : a = [] := by
  obtain ⟨r, hr⟩ := h
  exact List.append_eq_nil.mp hr |>.1

/-! ## Stop-matcher lemmas -/

theorem occursAt_iff {stops : List Str} {text : Str} {p : Nat} :
    occursAt stops text p = true ↔ ∃ s ∈ stops, s <+: text.drop p := by
  simp [occursAt]

theorem occursAt_congr {stops1 stops2 : List Str} (h : ∀ x, x ∈ stops1 ↔ x ∈ stops2)
    (text : Str) (p : Nat) : occursAt stops1 text p = occursAt stops2 text p := by
  cases h1 : occursAt stops1 text p
  · cases h2 : occursAt stops2 text p
    · rfl
    · obtain ⟨s, hs, hpre⟩ := occursAt_iff.mp h2
      rw [occursAt_iff.mpr ⟨s, (h s).mpr hs, hpre⟩] at h1
      exact h1.symm
  · obtain ⟨s, hs, hpre⟩ := occursAt_iff.mp h1
    exact (occursAt_iff.mpr ⟨s, (h s).mp hs, hpre⟩).symm

theorem occursAt_false_of_gt {stops : List Str} {text : Str} {p : Nat}
    (hne : ∀ s ∈ stops, s ≠ []) (hp : text.length ≤ p) : occursAt stops text p = false := by
  cases hocc : occursAt stops text p
  · rfl
  · obtain ⟨s, hs, hpre⟩ := occursAt_iff.mp hocc
    rw [List.drop_eq_nil_of_le hp] at hpre
    exact absurd (preNil hpre) (hne s hs)

theorem searchAux_some {stops : List Str} {text : Str} {fuel p q : Nat}
    (h : searchAux stops text fuel p = some q) :
    p ≤ q ∧ q < p + fuel ∧ occursAt stops text q = true ∧
      ∀ r, p ≤ r → r < q → occursAt stops text r = false := by
  induction fuel generalizing p with
  | zero => exact absurd h (by simp [searchAux])
  | succ n ih =>
    rw [searchAux] at h
    by_cases hocc : occursAt stops text p = true
    · rw [if_pos hocc] at h
      cases h
      exact ⟨le_refl _, by omega, hocc, fun r h1 h2 => absurd (lt_of_le_of_lt h1 h2) (lt_irrefl _)⟩
    · rw [if_neg hocc] at h
      obtain ⟨h1, h2, h3, h4⟩ := ih h
      refine ⟨by omega, by omega, h3, fun r hr1 hr2 => ?_⟩
      rcases Nat.eq_or_lt_of_le hr1 with rfl | hlt
      · exact Bool.eq_false_iff.mpr hocc
      · exact h4 r hlt hr2

theorem searchAux_none {stops : List Str} {text : Str} {fuel p : Nat}
    (h : searchAux stops text fuel p = none) :
    ∀ r, p ≤ r → r < p + fuel → occursAt stops text r = false := by
  induction fuel generalizing p with
  | zero => intro r h1 h2; omega
  | succ n ih =>
    rw [searchAux] at h
    by_cases hocc : occursAt stops text p = true
    · rw [if_pos hocc] at h; cases h
    · rw [if_neg hocc] at h
      intro r h1 h2
      rcases Nat.eq_or_lt_of_le h1 with rfl | hlt
      · exact Bool.eq_false_iff.mpr hocc
      · exact ih h r hlt (by omega)

theorem searchAux_isSome {stops : List Str} {text : Str} {fuel p q : Nat}
    (hq : occursAt stops text q = true) (h1 : p ≤ q) (h2 : q < p + fuel) :
    (searchAux stops text fuel p).isSome := by
  cases hs : searchAux stops text fuel p
  · exact absurd hq (by rw [searchAux_none hs q h1 h2]; simp)
  · rfl

theorem stopMatchStart_spec {stops : List Str} {text : Str} {p : Nat}
    (h : stopMatchStart stops text = some p) :
    p ≤ text.length ∧ occursAt stops text p = true ∧
      ∀ r, r < p → occursAt stops text r = false := by
  obtain ⟨_, h2, h3, h4⟩ := searchAux_some h
  exact ⟨by omega, h3, fun r hr => h4 r (Nat.zero_le r) hr⟩

theorem stopMatchStart_isSome {stops : List Str} {text : Str} {q : Nat}
    (hq : occursAt stops text q = true) (hle : q ≤ text.length) :
    (stopMatchStart stops text).isSome :=
  searchAux_isSome hq (Nat.zero_le q) (by omega)

theorem stopMatchStart_none {stops : List Str} {text : Str}
    (hne : ∀ s ∈ stops, s ≠ []) (h : stopMatchStart stops text = none) :
    ∀ p, occursAt stops text p = false := by
  intro p
  by_cases hp : p ≤ text.length
  · exact searchAux_none h p (Nat.zero_le p) (by omega)
  · exact occursAt_false_of_gt hne (by omega)

theorem fullMatch_some {stops : List Str} {text : Str} {p : Nat}
    (h : fullMatch stops text = some p) : stopMatchStart stops text = some p := by
  rw [fullMatch] at h
  split at h
  · cases h
  · exact h

theorem fullMatch_none_occ {stops : List Str} {text : Str}
    (hne : ∀ s ∈ stops, s ≠ []) (h : fullMatch stops text = none) :
    ∀ p, occursAt stops text p = false := by
  rw [fullMatch] at h
  split at h
  · next hemp =>
    intro p
    rw [List.isEmpty_iff] at hemp
    subst hemp
    rfl
  · exact stopMatchStart_none hne h

theorem fullMatch_isSome {stops : List Str} {text s : Str} (hs : s ∈ stops)
    (hocc : s <:+: text) : ∃ p, fullMatch stops text = some p := by
  obtain ⟨q, hqle, hqpre⟩ := infixIffDropPre.mp hocc
  have h1 : (stopMatchStart stops text).isSome :=
    stopMatchStart_isSome (occursAt_iff.mpr ⟨s, hs, hqpre⟩) hqle
  rw [fullMatch, if_neg (by simp [List.isEmpty_iff]; rintro rfl; cases hs)]
  exact Option.isSome_iff_exists.mp h1

/-! ## Longest-stop-prefix lemmas -/

theorem lfs_le (stop text : Str) (n : Nat) : longestForStop stop text n ≤ n := by
  induction n with
  | zero => simp [longestForStop]
  | succ m ih =>
    rw [longestForStop]
    split
    · exact le_refl _
    · exact le_trans ih (by omega)

theorem lfs_cases (stop text : Str) (n : Nat) :
    longestForStop stop text n = 0 ∨
      (1 ≤ longestForStop stop text n ∧ longestForStop stop text n ≤ n ∧
        stop.take (longestForStop stop text n) <:+ text) := by
  induction n with
  | zero => exact Or.inl rfl
  | succ m ih =>
    rw [longestForStop]
    split
    · next hsuf =>
      refine Or.inr ⟨by omega, le_refl _, ?_⟩
      simpa using hsuf
    · rcases ih with h | ⟨h1, h2, h3⟩
      · exact Or.inl h
      · exact Or.inr ⟨h1, by omega, h3⟩

theorem lfs_ge {stop text : Str} {n i : Nat} (h1 : 1 ≤ i) (h2 : i ≤ n)
    (h3 : stop.take i <:+ text) : i ≤ longestForStop stop text n := by
  induction n with
  | zero => omega
  | succ m ih =>
    rw [longestForStop]
    split
    · next hsuf => omega
    · next hsuf =>
      rcases Nat.eq_or_lt_of_le h2 with rfl | hlt
      · exact absurd (by simpa using h3) hsuf
      · exact ih (by omega)

theorem foldlMax_ge_init {α : Type} (f : α → Nat) (l : List α) (a : Nat) :
    a ≤ l.foldl (fun m s => max m (f s)) a := by
  induction l generalizing a with
  | nil => exact le_refl a
  | cons x xs ih => exact le_trans (Nat.le_max_left a (f x)) (ih (max a (f x)))

theorem foldlMax_ge_mem {α : Type} (f : α → Nat) {l : List α} {s : α} (hs : s ∈ l) (a : Nat) :
    f s ≤ l.foldl (fun m s => max m (f s)) a := by
  induction l generalizing a with
  | nil => cases hs
  | cons x xs ih =>
    rcases List.mem_cons.mp hs with rfl | hmem
    · exact le_trans (Nat.le_max_right a (f s)) (foldlMax_ge_init f xs (max a (f s)))
    · exact ih hmem (max a (f x))

theorem foldlMax_cases {α : Type} (f : α → Nat) (l : List α) (a : Nat) :
    l.foldl (fun m s => max m (f s)) a = a ∨
      ∃ s ∈ l, l.foldl (fun m s => max m (f s)) a = f s := by
  induction l generalizing a with
  | nil => exact Or.inl rfl
  | cons x xs ih =>
    rcases ih (max a (f x)) with h | ⟨s, hs, h⟩
    · rw [List.foldl_cons, h]
      rcases max_choice a (f x) with hm | hm
      · exact Or.inl hm
      · exact Or.inr ⟨x, List.mem_cons_self x xs, hm⟩
    · exact Or.inr ⟨s, List.mem_cons_of_mem x hs, by rw [List.foldl_cons, h]⟩

theorem lsp_ge {stops : List Str} {text s : Str} {i : Nat} (hs : s ∈ stops) (h1 : 1 ≤ i)
    (h2 : i ≤ s.length) (h3 : s.take i <:+ text) : i ≤ longestStopPrefixLen stops text :=
  le_trans (lfs_ge h1 h2 h3)
    (foldlMax_ge_mem (fun stop => longestForStop stop text stop.length) hs 0)

theorem lsp_le_len (stops : List Str) (text : Str) :
    longestStopPrefixLen stops text ≤ text.length := by
  rw [longestStopPrefixLen]
  rcases foldlMax_cases (fun stop => longestForStop stop text stop.length) stops 0 with
    h | ⟨s, _, h⟩
  · omega
  · rw [h]
    rcases lfs_cases s text s.length with h0 | ⟨h1, h2, h3⟩
    · omega
    · have := h3.length_le
      rw [List.length_take] at this
      omega

/-! ## Equivalence of the withholding scan with the spec's formula -/

theorem foldlMax_pull (l : List Nat) (a : Nat) : l.foldl max a = max a (l.foldl max 0) := by
  induction l generalizing a with
  | nil => simp
  | cons x xs ih =>
    rw [List.foldl_cons, List.foldl_cons, ih (max a x), ih (max 0 x)]
    omega

theorem foldl_congrFn {α β : Type} (f g : β → α → β) (h : ∀ b a, f b a = g b a)
    (l : List α) (b : β) : l.foldl f b = l.foldl g b := by
  induction l generalizing b with
  | nil => rfl
  | cons x xs ih => rw [List.foldl_cons, List.foldl_cons, h, ih]

theorem spec_withheldLen_eq_fold (stops : List Str) (text : Str) :
    spec_withheldLen stops text =
      stops.foldl (fun m stop => max m ((spec_matchLens stop text).foldl max 0)) 0 := by
  rw [spec_withheldLen]
  exact foldl_congrFn _ _ (fun b a => foldlMax_pull (spec_matchLens a text) b) stops 0

theorem mem_spec_matchLens {stop text : Str} {i : Nat} :
    i ∈ spec_matchLens stop text ↔ 1 ≤ i ∧ i ≤ stop.length ∧ stop.take i <:+ text := by
  simp [spec_matchLens, Nat.lt_succ_iff]
  tauto

theorem lfs_eq_specInner (stop text : Str) :
    longestForStop stop text stop.length = (spec_matchLens stop text).foldl max 0 := by
  apply Nat.le_antisymm
  · rcases lfs_cases stop text stop.length with h | ⟨h1, h2, h3⟩
    · omega
    · have hm : longestForStop stop text stop.length ∈ spec_matchLens stop text :=
        mem_spec_matchLens.mpr ⟨h1, h2, h3⟩
      exact foldlMax_ge_mem (fun i => i) hm 0
  · rcases foldlMax_cases (fun i : Nat => i) (spec_matchLens stop text) 0 with h | ⟨i, hi, h⟩
    · exact le_trans (le_of_eq h) (Nat.zero_le _)
    · obtain ⟨h1, h2, h3⟩ := mem_spec_matchLens.mp hi
      exact le_trans (le_of_eq h) (lfs_ge h1 h2 h3)

theorem lsp_eq_spec (stops : List Str) (text : Str) :
    longestStopPrefixLen stops text = spec_withheldLen stops text := by
  rw [longestStopPrefixLen, spec_withheldLen_eq_fold]
  exact foldl_congrFn _ _ (fun b a => congrArg (max b) (lfs_eq_specInner a text)) stops 0

/-! ## No-leak invariant lemmas

`E` is the concatenation of the chunks emitted so far, `T` the kept
`text`.  The two invariants: no stop occurs in `E ++ T`, and every pending
partial stop match at the end of `E ++ T` lies within `T`.  Together they
force every stop occurrence inside `E ++ T ++ D` (for any future decoded
text `D`) to start at or after the `E`/`T` boundary, so the search over
`text = T ++ D` alone is enough. -/

theorem infNil {s : Str} (h : s <:+: ([] : Str)) : s = [] := by
  obtain ⟨x, y, hxy⟩ := h
  have := List.append_eq_nil.mp hxy
  exact (List.append_eq_nil.mp this.1).2

theorem sufNil {a : Str} (h : a <:+ ([] : Str)) : a = [] := by
  obtain ⟨t, ht⟩ := h
  exact (List.append_eq_nil.mp ht).2

theorem occStartGe {stops : List Str} {E T D : Str} (h1 : NoStopIn stops (E ++ T))
    (h2 : TailSafe stops E T) {s : Str} (hs : s ∈ stops) {p : Nat}
    (hp : s <+: ((E ++ T) ++ D).drop p) : E.length ≤ p := by
  by_contra hlt
  push_neg at hlt
  have hple : p ≤ (E ++ T).length := by rw [List.length_append]; omega
  have hdrop : ((E ++ T) ++ D).drop p = (E ++ T).drop p ++ D := by
    rw [List.drop_append_eq_append_drop, Nat.sub_eq_zero_of_le hple, List.drop_zero]
  rw [hdrop] at hp
  have hRlen : ((E ++ T).drop p).length = E.length + T.length - p := by
    rw [List.length_drop, List.length_append]
  by_cases hc : s.length ≤ ((E ++ T).drop p).length
  · exact h1 s hs (preSufInf (preOfAppendLeft hp hc) (dropSuf (E ++ T) p))
  · push_neg at hc
    have hTake : s.take ((E ++ T).drop p).length = (E ++ T).drop p := preTakeEq hp (le_of_lt hc)
    have hSuf : s.take ((E ++ T).drop p).length <:+ E ++ T := by
      rw [hTake]; exact dropSuf _ _
    have := h2 s hs ((E ++ T).drop p).length (by omega) (le_of_lt hc) hSuf
    omega

theorem noStopInExtend {stops : List Str} {E T D : Str} (h1 : NoStopIn stops (E ++ T))
    (h2 : TailSafe stops E T) (hocc : ∀ p, occursAt stops (T ++ D) p = false) :
    NoStopIn stops (E ++ (T ++ D)) := by
  intro s hs hinf
  rw [← List.append_assoc] at hinf
  obtain ⟨p, hple, hpre⟩ := infixIffDropPre.mp hinf
  have hge := occStartGe h1 h2 hs hpre
  have hdrop : ((E ++ T) ++ D).drop p = (T ++ D).drop (p - E.length) := by
    rw [List.append_assoc, List.drop_append_eq_append_drop, List.drop_eq_nil_of_le hge,
      List.nil_append]
  rw [hdrop] at hpre
  have h3 : occursAt stops (T ++ D) (p - E.length) = true := occursAt_iff.mpr ⟨s, hs, hpre⟩
  rw [hocc] at h3
  cases h3

theorem tailSafeEmit (stops : List Str) (E T D : Str) (h2 : TailSafe stops E T) :
    TailSafe stops
      (E ++ (T ++ D).take ((T ++ D).length - longestStopPrefixLen stops (T ++ D)))
      ((T ++ D).drop ((T ++ D).length - longestStopPrefixLen stops (T ++ D))) := by
  intro s hs i h1i h2i hsuf
  have hLle : longestStopPrefixLen stops (T ++ D) ≤ (T ++ D).length := lsp_le_len stops (T ++ D)
  have hEX : (E ++ (T ++ D).take ((T ++ D).length - longestStopPrefixLen stops (T ++ D))) ++
      (T ++ D).drop ((T ++ D).length - longestStopPrefixLen stops (T ++ D)) = E ++ (T ++ D) := by
    rw [List.append_assoc, List.take_append_drop]
  rw [hEX] at hsuf
  have hlen : ((T ++ D).drop ((T ++ D).length - longestStopPrefixLen stops (T ++ D))).length =
      longestStopPrefixLen stops (T ++ D) := by
    rw [List.length_drop]; omega
  rw [hlen]
  by_cases hc : i ≤ (T ++ D).length
  · refine lsp_ge hs h1i h2i ?_
    exact sufOfAppendRight hsuf (by rw [List.length_take]; omega)
  · exfalso
    push_neg at hc
    rw [List.length_append] at hc
    have hD : D.length ≤ (s.take i).length := by rw [List.length_take]; omega
    have h4 : (s.take i).take ((s.take i).length - D.length) <:+ E ++ T := by
      rw [← List.append_assoc] at hsuf
      exact sufAppendTake hsuf hD
    have hTT : (s.take i).take ((s.take i).length - D.length) = s.take (i - D.length) := by
      rw [List.length_take, List.take_take]
      congr 1
      omega
    rw [hTT] at h4
    have hj := h2 s hs (i - D.length) (by omega) (by omega) h4
    omega

theorem noStopInTrim {stops : List Str} {E T D : Str} {p : Nat}
    (hne : ∀ s ∈ stops, s ≠ []) (h1 : NoStopIn stops (E ++ T)) (h2 : TailSafe stops E T)
    (hp : stopMatchStart stops (T ++ D) = some p) :
    NoStopIn stops (E ++ (T ++ D).take p) := by
  obtain ⟨hplen, hoccp, hmin⟩ := stopMatchStart_spec hp
  intro s hs hinf
  obtain ⟨q, hqle, hqpre⟩ := infixIffDropPre.mp hinf
  have hq2 : s <+: ((E ++ T) ++ D).drop q := by
    have hAB : (E ++ T) ++ D =
        (E ++ (T ++ D).take p) ++ (T ++ D).drop p := by
      rw [List.append_assoc, List.append_assoc, List.take_append_drop]
    rw [hAB, List.drop_append_eq_append_drop, Nat.sub_eq_zero_of_le hqle, List.drop_zero]
    exact hqpre.trans (List.prefix_append _ _)
  have hgeE := occStartGe h1 h2 hs hq2
  have hdropq : (E ++ (T ++ D).take p).drop q = ((T ++ D).take p).drop (q - E.length) := by
    rw [List.drop_append_eq_append_drop, List.drop_eq_nil_of_le hgeE, List.nil_append]
  rw [hdropq] at hqpre
  have hslen : s.length ≤ ((T ++ D).take p).length - (q - E.length) := by
    have := hqpre.length_le
    rwa [List.length_drop] at this
  have hXp : ((T ++ D).take p).drop (q - E.length) =
      ((T ++ D).drop (q - E.length)).take (p - (q - E.length)) :=
    List.drop_take p (q - E.length) (T ++ D)
  rw [hXp] at hqpre
  have hpre2 : s <+: (T ++ D).drop (q - E.length) := hqpre.trans (takePre _ _)
  have hocc_r : occursAt stops (T ++ D) (q - E.length) = true :=
    occursAt_iff.mpr ⟨s, hs, hpre2⟩
  have hs1 : 0 < s.length := List.length_pos.mpr (hne s hs)
  have hrlt : q - E.length < p := by
    rw [List.length_take] at hslen
    omega
  rw [hmin _ hrlt] at hocc_r
  cases hocc_r

/-! ## Shape lemmas for the loop -/

theorem emitted_nil : emitted [] = [] := rfl

theorem emitted_cons (c : Chunk) (cs : List Chunk) : emitted (c :: cs) = c.1 ++ emitted cs :=
  rfl

theorem emitted_append (a b : List Chunk) : emitted (a ++ b) = emitted a ++ emitted b := by
  induction a with
  | nil => rfl
  | cons c cs ih =>
    show c.1 ++ emitted (cs ++ b) = (c.1 ++ emitted cs) ++ emitted b
    rw [ih, List.append_assoc]

theorem emitted_single (t : Str) (r : Option String) : emitted [(t, r)] = t := by
  simp [emitted]

theorem stepEmit_emitted (stops : List Str) (text : Str) :
    emitted (stepEmit stops text).1 =
      text.take (text.length - longestStopPrefixLen stops text) := by
  simp only [stepEmit]
  split
  · exact emitted_single _ _
  · next h =>
    have h0 : text.length - longestStopPrefixLen stops text = 0 := by omega
    rw [h0]
    rfl

theorem stepEmit_keep (stops : List Str) (text : Str) :
    (stepEmit stops text).2 =
      text.drop (text.length - longestStopPrefixLen stops text) := by
  simp only [stepEmit]
  split
  · rfl
  · next h =>
    have h0 : text.length - longestStopPrefixLen stops text = 0 := by omega
    rw [h0, List.drop_zero]

theorem stepEmit_chunks_none (stops : List Str) (text : Str) :
    ∀ c ∈ (stepEmit stops text).1, c.2 = none := by
  simp only [stepEmit]
  split
  · intro c hc
    simp only [List.mem_singleton] at hc
    rw [hc]
  · intro c hc
    cases hc

theorem step_eos (stops : List Str) (mt : Option Int) (s : GState) :
    step stops mt s .eos = ([], .finished s.text "stop") := rfl

theorem step_tok_match {stops : List Str} {s : GState} {bs : List Nat} {p : Nat}
    (mt : Option Int) (h : fullMatch stops (stepText s bs) = some p) :
    step stops mt s (.tok bs) = ([], .finished ((stepText s bs).take p) "stop") := by
  simp only [step, h]

theorem step_tok_none {stops : List Str} {s : GState} {bs : List Nat}
    (mt : Option Int) (h : fullMatch stops (stepText s bs) = none) :
    step stops mt s (.tok bs) =
      ((stepEmit stops (stepText s bs)).1,
        if maxTokensHit mt (s.count + 1) then
          .finished (stepEmit stops (stepText s bs)).2 "length"
        else
          .next ⟨s.count + 1, (stepEmit stops (stepText s bs)).2,
            (utf8_split_incomplete (s.incomplete ++ bs)).2⟩) := by
  simp only [step, h]
  split <;> rfl

theorem runGen_nil (stops : List Str) (mt : Option Int) (s : GState) :
    runGen stops mt s [] = ([], false) := rfl

theorem runGen_cons_next {stops : List Str} {mt : Option Int} {s s' : GState} {t : Tok}
    {cs : List Chunk} (ts : List Tok) (h : step stops mt s t = (cs, .next s')) :
    runGen stops mt s (t :: ts) =
      (cs ++ (runGen stops mt s' ts).1, (runGen stops mt s' ts).2) := by
  simp only [runGen, h]

theorem runGen_cons_fin {stops : List Str} {mt : Option Int} {s : GState} {t : Tok}
    {cs : List Chunk} {ft : Str} {r : String} (ts : List Tok)
    (h : step stops mt s t = (cs, .finished ft r)) :
    runGen stops mt s (t :: ts) = (cs ++ [(ft, some r)], true) := by
  simp only [runGen, h]

/-! ## The no-leak induction -/

theorem runGen_noLeak {stops : List Str} (hne : ∀ s ∈ stops, s ≠ []) (mt : Option Int)
    (stream : List Tok) :
    ∀ (E : Str) (st : GState), NoStopIn stops (E ++ st.text) → TailSafe stops E st.text →
      NoStopIn stops (E ++ emitted (runGen stops mt st stream).1) := by
  induction stream with
  | nil =>
    intro E st h1 h2 s hs hinf
    rw [runGen_nil] at hinf
    apply h1 s hs
    rw [emitted_nil, List.append_nil] at hinf
    exact infExtendRight hinf st.text
  | cons t ts ih =>
    intro E st h1 h2
    cases t with
    | eos =>
      rw [runGen_cons_fin ts (step_eos stops mt st)]
      have he : emitted (([] : List Chunk) ++ [(st.text, some "stop")]) = st.text := by
        rw [List.nil_append, emitted_single]
      rw [he]
      exact h1
    | tok bs =>
      cases hfm : fullMatch stops (stepText st bs) with
      | some p =>
        rw [runGen_cons_fin ts (step_tok_match mt hfm)]
        have he : emitted (([] : List Chunk) ++ [((stepText st bs).take p, some "stop")]) =
            (stepText st bs).take p := by
          rw [List.nil_append, emitted_single]
        rw [he]
        exact noStopInTrim hne h1 h2 (fullMatch_some hfm)
      | none =>
        have hocc : ∀ q, occursAt stops (stepText st bs) q = false :=
          fullMatch_none_occ hne hfm
        have hNS : NoStopIn stops (E ++ stepText st bs) := noStopInExtend h1 h2 hocc
        have hTS := tailSafeEmit stops E st.text
          (utf8DecodeIgnore (utf8_split_incomplete (st.incomplete ++ bs)).1) h2
        cases hht : maxTokensHit mt (st.count + 1) with
        | true =>
          have hstep : step stops mt st (.tok bs) =
              ((stepEmit stops (stepText st bs)).1,
                .finished (stepEmit stops (stepText st bs)).2 "length") := by
            rw [step_tok_none mt hfm, hht, if_pos rfl]
          rw [runGen_cons_fin ts hstep, emitted_append, stepEmit_emitted, emitted_single,
            stepEmit_keep, List.take_append_drop]
          exact hNS
        | false =>
          have hstep : step stops mt st (.tok bs) =
              ((stepEmit stops (stepText st bs)).1,
                .next ⟨st.count + 1, (stepEmit stops (stepText st bs)).2,
                  (utf8_split_incomplete (st.incomplete ++ bs)).2⟩) := by
            rw [step_tok_none mt hfm, hht]
            simp
          rw [runGen_cons_next ts hstep, emitted_append, stepEmit_emitted,
            ← List.append_assoc]
          refine ih (E ++ (stepText st bs).take
              ((stepText st bs).length - longestStopPrefixLen stops (stepText st bs)))
            ⟨st.count + 1, (stepEmit stops (stepText st bs)).2,
              (utf8_split_incomplete (st.incomplete ++ bs)).2⟩ ?_ ?_
          · rw [stepEmit_keep, List.append_assoc, List.take_append_drop]
            exact hNS
          · rw [stepEmit_keep]
            exact hTS

/-! ## Byte round trip -/

theorem utf8_split_incomplete_concat (seq : List Nat) :
    (utf8_split_incomplete seq).1 ++ (utf8_split_incomplete seq).2 = seq :=
  List.take_append_drop _ _

theorem pushAll_concat (chunks : List (List Nat)) (pending : List Nat) :
    concatBytes (pushAll pending chunks).1 ++ (pushAll pending chunks).2 =
      pending ++ concatBytes chunks := by
  induction chunks generalizing pending with
  | nil => simp [pushAll, concatBytes]
  | cons c cs ih =>
    simp only [pushAll, concatBytes, List.foldr_cons]
    rw [List.append_assoc]
    have := ih (utf8_split_incomplete (pending ++ c)).2
    rw [concatBytes] at this
    rw [this, ← List.append_assoc, utf8_split_incomplete_concat, List.append_assoc]
    rfl

/-! ## Termination-shape lemmas -/

theorem runGen_noLength {stops : List Str} {mt : Option Int}
    (h : mt = none ∨ mt = some 0) (st : GState) (stream : List Tok) :
    ∀ c ∈ (runGen stops mt st stream).1, c.2 ≠ some "length" := by
  have hht : ∀ n, maxTokensHit mt n = false := by
    rcases h with rfl | rfl <;> intro n <;> simp [maxTokensHit]
  induction stream generalizing st with
  | nil => intro c hc; rw [runGen_nil] at hc; cases hc
  | cons t ts ih =>
    intro c hc
    cases t with
    | eos =>
      rw [runGen_cons_fin ts (step_eos stops mt st), List.nil_append,
        List.mem_singleton] at hc
      rw [hc]
      simp
    | tok bs =>
      cases hfm : fullMatch stops (stepText st bs) with
      | some p =>
        rw [runGen_cons_fin ts (step_tok_match mt hfm), List.nil_append,
          List.mem_singleton] at hc
        rw [hc]
        simp
      | none =>
        have hstep : step stops mt st (.tok bs) =
            ((stepEmit stops (stepText st bs)).1,
              .next ⟨st.count + 1, (stepEmit stops (stepText st bs)).2,
                (utf8_split_incomplete (st.incomplete ++ bs)).2⟩) := by
          rw [step_tok_none mt hfm, hht]
          simp
        rw [runGen_cons_next ts hstep] at hc
        rcases List.mem_append.mp hc with hc1 | hc2
        · rw [stepEmit_chunks_none stops (stepText st bs) c hc1]
          simp
        · exact ih _ c hc2

theorem runGen_finStructure {stops : List Str} {mt : Option Int} (st : GState)
    (stream : List Tok) (h : (runGen stops mt st stream).2 = true) :
    ∃ pre t r, (runGen stops mt st stream).1 = pre ++ [(t, some r)] ∧
      (∀ c ∈ pre, c.2 = none) ∧ (r = "stop" ∨ r = "length") := by
  induction stream generalizing st with
  | nil => rw [runGen_nil] at h; cases h
  | cons t ts ih =>
    cases t with
    | eos =>
      rw [runGen_cons_fin ts (step_eos stops mt st)]
      exact ⟨[], st.text, "stop", rfl, fun c hc => absurd hc (List.not_mem_nil c), Or.inl rfl⟩
    | tok bs =>
      cases hfm : fullMatch stops (stepText st bs) with
      | some p =>
        rw [runGen_cons_fin ts (step_tok_match mt hfm)]
        exact ⟨[], (stepText st bs).take p, "stop", rfl,
          fun c hc => absurd hc (List.not_mem_nil c), Or.inl rfl⟩
      | none =>
        cases hht : maxTokensHit mt (st.count + 1) with
        | true =>
          have hstep : step stops mt st (.tok bs) =
              ((stepEmit stops (stepText st bs)).1,
                .finished (stepEmit stops (stepText st bs)).2 "length") := by
            rw [step_tok_none mt hfm, hht, if_pos rfl]
          rw [runGen_cons_fin ts hstep]
          exact ⟨(stepEmit stops (stepText st bs)).1, (stepEmit stops (stepText st bs)).2,
            "length", rfl, stepEmit_chunks_none stops (stepText st bs), Or.inr rfl⟩
        | false =>
          have hstep : step stops mt st (.tok bs) =
              ((stepEmit stops (stepText st bs)).1,
                .next ⟨st.count + 1, (stepEmit stops (stepText st bs)).2,
                  (utf8_split_incomplete (st.incomplete ++ bs)).2⟩) := by
            rw [step_tok_none mt hfm, hht]
            simp
          rw [runGen_cons_next ts hstep] at h ⊢
          obtain ⟨pre, tl, r, h1, h2, h3⟩ := ih _ h
          refine ⟨(stepEmit stops (stepText st bs)).1 ++ pre, tl, r, ?_, ?_, h3⟩
          · rw [h1, List.append_assoc]
          · intro c hc
            rcases List.mem_append.mp hc with hc1 | hc2
            · exact stepEmit_chunks_none stops (stepText st bs) c hc1
            · exact h2 c hc2

/-! ## Empty stop set -/

theorem fullMatch_nil (text : Str) : fullMatch [] text = none := rfl

theorem stepEmit_empty (text : Str) :
    stepEmit [] text = ((if text = [] then [] else [(text, none)]), []) := by
  have hlsp : longestStopPrefixLen [] text = 0 := rfl
  simp only [stepEmit, hlsp, Nat.sub_zero]
  by_cases h : text = []
  · subst h
    simp
  · rw [if_pos (List.length_pos.mpr h), if_neg h, List.take_length, List.drop_length]

theorem step_empty_stops (mt : Option Int) (s : GState) (bs : List Nat) :
    step ([] : List Str) mt s (.tok bs) =
      ((if stepText s bs = [] then [] else [(stepText s bs, none)]),
        if maxTokensHit mt (s.count + 1) then .finished [] "length"
        else .next ⟨s.count + 1, [], (utf8_split_incomplete (s.incomplete ++ bs)).2⟩) := by
  rw [step_tok_none mt (fullMatch_nil _), stepEmit_empty]

theorem runGen_empty_stops_noStop (mt : Option Int) (st : GState) (stream : List Tok)
    (hstream : ∀ t ∈ stream, t ≠ Tok.eos) :
    ∀ c ∈ (runGen ([] : List Str) mt st stream).1, c.2 ≠ some "stop" := by
  induction stream generalizing st with
  | nil => intro c hc; rw [runGen_nil] at hc; cases hc
  | cons t ts ih =>
    intro c hc
    cases t with
    | eos => exact absurd rfl (hstream Tok.eos (List.mem_cons_self _ _))
    | tok bs =>
      cases hht : maxTokensHit mt (st.count + 1) with
      | true =>
        have hstep : step ([] : List Str) mt st (.tok bs) =
            ((stepEmit [] (stepText st bs)).1,
              .finished (stepEmit [] (stepText st bs)).2 "length") := by
          rw [step_tok_none mt (fullMatch_nil _), hht, if_pos rfl]
        rw [runGen_cons_fin ts hstep] at hc
        rcases List.mem_append.mp hc with hc1 | hc2
        · rw [stepEmit_chunks_none [] (stepText st bs) c hc1]
          simp
        · rw [List.mem_singleton] at hc2
          rw [hc2]
          simp
      | false =>
        have hstep : step ([] : List Str) mt st (.tok bs) =
            ((stepEmit [] (stepText st bs)).1,
              .next ⟨st.count + 1, (stepEmit [] (stepText st bs)).2,
                (utf8_split_incomplete (st.incomplete ++ bs)).2⟩) := by
          rw [step_tok_none mt (fullMatch_nil _), hht]
          simp
        rw [runGen_cons_next ts hstep] at hc
        rcases List.mem_append.mp hc with hc1 | hc2
        · rw [stepEmit_chunks_none [] (stepText st bs) c hc1]
          simp
        · exact ih _ (fun t ht => hstream t (List.mem_cons_of_mem _ ht)) c hc2

/-! ## Full-match and leftmost lemmas -/

theorem runGen_fullMatch {stops : List Str} {st : GState} {bs : List Nat}
    (mt : Option Int) (ts : List Tok)
    (hocc : ∃ stop ∈ stops, stop <:+: stepText st bs) :
    ∃ p, stopMatchStart stops (stepText st bs) = some p ∧
      runGen stops mt st (Tok.tok bs :: ts) =
        ([((stepText st bs).take p, some "stop")], true) := by
  obtain ⟨s0, hs0, hinf⟩ := hocc
  obtain ⟨p, hp⟩ := fullMatch_isSome hs0 hinf
  refine ⟨p, fullMatch_some hp, ?_⟩
  rw [runGen_cons_fin ts (step_tok_match mt hp), List.nil_append]

theorem searchAux_congr {stops1 stops2 : List Str} (h : ∀ x, x ∈ stops1 ↔ x ∈ stops2)
    (text : Str) (fuel p : Nat) :
    searchAux stops1 text fuel p = searchAux stops2 text fuel p := by
  induction fuel generalizing p with
  | zero => rfl
  | succ n ih =>
    rw [searchAux, searchAux, occursAt_congr h text p]
    cases occursAt stops2 text p
    · simp only [Bool.false_eq_true, if_false]
      exact ih (p + 1)
    · rfl

theorem stopMatchStart_congr {stops1 stops2 : List Str} (h : ∀ x, x ∈ stops1 ↔ x ∈ stops2)
    (text : Str) : stopMatchStart stops1 text = stopMatchStart stops2 text :=
  searchAux_congr h text (text.length + 1) 0

theorem step_stop_leftmost {stops : List Str} {mt : Option Int} {s : GState} {bs : List Nat}
    {cs : List Chunk} {ft : Str}
    (hstep : step stops mt s (.tok bs) = (cs, .finished ft "stop")) :
    ∃ p, stopMatchStart stops (stepText s bs) = some p ∧ ft = (stepText s bs).take p ∧
      (∃ stop ∈ stops, stop <+: (stepText s bs).drop p) ∧
      ∀ q, q < p → ∀ stop ∈ stops, ¬ stop <+: (stepText s bs).drop q := by
  cases hfm : fullMatch stops (stepText s bs) with
  | some p =>
    rw [step_tok_match mt hfm] at hstep
    have h2 := congrArg Prod.snd hstep
    simp only at h2
    injection h2 with hft _
    obtain ⟨hle, hocc, hmin⟩ := stopMatchStart_spec (fullMatch_some hfm)
    obtain ⟨s0, hs0, hp0⟩ := occursAt_iff.mp hocc
    refine ⟨p, fullMatch_some hfm, hft.symm, ⟨s0, hs0, hp0⟩, ?_⟩
    intro q hq stop hstop hpre
    have hx := occursAt_iff.mpr ⟨stop, hstop, hpre⟩
    rw [hmin q hq] at hx
    cases hx
  | none =>
    exfalso
    rw [step_tok_none mt hfm] at hstep
    have h2 := congrArg Prod.snd hstep
    simp only at h2
    cases hht : maxTokensHit mt (s.count + 1) with
    | true =>
      rw [hht, if_pos rfl] at h2
      injection h2 with _ hr
      exact absurd hr (by decide)
    | false =>
      rw [hht] at h2
      simp at h2

/-!
# Claim theorems
-/

/-- Claim C1, counterexample: the claim quantifies over **every** stop set,
but for the stop set containing the empty string the concatenated output
(here empty) trivially contains that configured stop string as a
substring, so the claim as stated is false. -/
theorem c1_counterexample :
    ([] : Str) ∈ ([[]] : List Str) ∧
      ([] : Str) <:+: emitted (generate [[]] none [Tok.tok [97]]).1 := by
  exact ⟨by decide, ⟨[], [], by decide⟩⟩

/-- Claim C1 (amended: every stop set whose stop strings are all
non-empty): for every such stop set and every sequence of sampled-token
byte chunks, the concatenation of all text chunks produced by the
generation loop (including the final chunk) never contains any configured
stop string as a substring. -/
theorem c1_noStopLeakage (stops : List Str) (mt : Option Int) (stream : List Tok)
    (hne : ∀ s ∈ stops, s ≠ []) :
    ∀ s ∈ stops, ¬ s <:+: emitted (generate stops mt stream).1 := by
  have hinit1 : NoStopIn stops (([] : Str) ++ []) := fun s hs hinf =>
    hne s hs (infNil hinf)
  have hinit2 : TailSafe stops [] [] := by
    intro s hs i h1 h2 hsuf
    have h0 := sufNil hsuf
    have hlen : (s.take i).length = 0 := by rw [h0]; rfl
    rw [List.length_take] at hlen
    omega
  have h := runGen_noLeak hne mt stream [] ⟨0, [], []⟩ hinit1 hinit2
  intro s hs hinf
  exact h s hs (by rw [List.nil_append]; exact hinf)

/-- Witness for C1 (amended) at stops `["ab"]` and one sampled token whose
bytes decode to `"xa"`: the loop emits `"x"` and withholds `"a"`, and the
concatenated output does not contain `"ab"`. -/
theorem c1_noStopLeakage_witness :
    ¬ (['a', 'b'] : Str) <:+: emitted (generate [['a', 'b']] none [Tok.tok [120, 97]]).1 :=
  c1_noStopLeakage [['a', 'b']] none [Tok.tok [120, 97]] (by decide) ['a', 'b'] (by decide)

/-- Claim C2: for every accumulated text and every non-empty stop set in
which no stop string occurs as a substring of the text, the length of the
withheld suffix (the kept text of the emit step) equals the spec's
maximum, over all stop strings and all prefix lengths, of the lengths `i`
such that the text ends with the first `i` characters of that stop
string. -/
theorem c2_withheldLen (stops : List Str) (text : Str) (hne : stops ≠ [])
    (hnof : ∀ s ∈ stops, ¬ s <:+: text) :
    (stepEmit stops text).2.length = spec_withheldLen stops text ∧
      longestStopPrefixLen stops text = spec_withheldLen stops text := by
  have h := lsp_eq_spec stops text
  refine ⟨?_, h⟩
  rw [stepEmit_keep, List.length_drop]
  have hle := lsp_le_len stops text
  omega

/-- Witness for C2 at stops `["abc"]` and text `"xab"`: the withheld
suffix is the whole `"ab"` (length 2) and only `"x"` is emitted. -/
theorem c2_withheldLen_witness :
    (stepEmit [['a', 'b', 'c']] ['x', 'a', 'b']).2.length =
        spec_withheldLen [['a', 'b', 'c']] ['x', 'a', 'b'] ∧
      spec_withheldLen [['a', 'b', 'c']] ['x', 'a', 'b'] = 2 ∧
      (stepEmit [['a', 'b', 'c']] ['x', 'a', 'b']).2 = ['a', 'b'] ∧
      emitted (stepEmit [['a', 'b', 'c']] ['x', 'a', 'b']).1 = ['x'] :=
  ⟨(c2_withheldLen [['a', 'b', 'c']] ['x', 'a', 'b'] (by decide) (by decide)).1,
    by decide, by decide, by decide⟩

/-- Claim C3: for every sequence of raw byte chunks fed one at a time
through the split step (each chunk appended to the pending bytes left by
the previous step), the concatenation of all complete-bytes parts followed
by the final leftover pending bytes equals the concatenation of the
original input chunks. -/
theorem c3_byteRoundTrip (chunks : List (List Nat)) :
    concatBytes (pushAll [] chunks).1 ++ (pushAll [] chunks).2 = concatBytes chunks := by
  have h := pushAll_concat chunks []
  rwa [List.nil_append] at h

/-- Claim C4: whenever some configured stop string occurs as a substring
of the accumulated text, the session finishes with reason `"stop"` and the
final chunk is the text strictly before the leftmost match's start
position; nothing at or after that position is ever emitted. -/
theorem c4_fullMatchTrims (stops : List Str) (mt : Option Int) (st : GState) (bs : List Nat)
    (ts : List Tok) (hocc : ∃ stop ∈ stops, stop <:+: stepText st bs) :
    ∃ p, stopMatchStart stops (stepText st bs) = some p ∧
      runGen stops mt st (Tok.tok bs :: ts) =
        ([((stepText st bs).take p, some "stop")], true) :=
  runGen_fullMatch mt ts hocc

/-- Witness for C4 at accumulated text `"hello abc world"` with stop
`"abc"`: the final chunk is `"hello "` with reason `"stop"`. -/
theorem c4_fullMatchTrims_witness :
    runGen [String.toList "abc"] none ⟨0, String.toList "hello abc world", []⟩ [Tok.tok []] =
      ([(String.toList "hello ", some "stop")], true) := by
  obtain ⟨p, hp, hrun⟩ := c4_fullMatchTrims [String.toList "abc"] none
    ⟨0, String.toList "hello abc world", []⟩ [] []
    ⟨String.toList "abc", by decide, by decide⟩
  have hp6 : p = 6 := by
    have h6 : stopMatchStart [String.toList "abc"]
        (stepText ⟨0, String.toList "hello abc world", []⟩ []) = some 6 := by decide
    exact Option.some.inj (hp.symm.trans h6)
  rw [hp6] at hrun
  exact hrun.trans (by decide)

/-- Claim C5, counterexample: `maxTokens = -1 ≤ 0` (which the claim says
means unbounded), yet the run terminates with finish reason `"length"`
after the first sampled token, because Python's `if max_tokens and ...`
treats a negative value as truthy. -/
theorem c5_counterexample :
    (-1 : Int) ≤ 0 ∧
      generate [] (some (-1)) [Tok.tok [97]] =
        ([(['a'], none), ([], some "length")], true) :=
  ⟨by decide, by decide⟩

/-- Claim C5 (amended: maxTokens absent (`None`) or exactly `0`): such a
run never produces a chunk with finish reason `"length"`; only model
end-of-sequence or a stop-string match can terminate it. -/
theorem c5_unboundedNoLength (stops : List Str) (mt : Option Int) (stream : List Tok)
    (h : mt = none ∨ mt = some 0) :
    ∀ c ∈ (generate stops mt stream).1, c.2 ≠ some "length" :=
  runGen_noLength h ⟨0, [], []⟩ stream

/-- Witness for C5 (amended) at `maxTokens = None` and one sampled
token. -/
theorem c5_unboundedNoLength_witness :
    (['a'], some "length") ∉ (generate [] none [Tok.tok [97]]).1 :=
  fun hmem => c5_unboundedNoLength [] none [Tok.tok [97]] (Or.inl rfl) _ hmem rfl

/-- Claim C6 is violated by the code (code bug): the continuation-byte
test checks only the most significant bit, which is also set in lead
bytes, so two consecutive two-byte characters (`"é"` = `C3 A9` twice)
leave a pending buffer of length 4, not `< 4`; the same state is reached
inside the generation loop. -/
theorem c6_pendingOverflow :
    (pushAll [] [[195, 169], [195, 169]]).2 = [195, 169, 195, 169] ∧
      ¬ (pushAll [] [[195, 169], [195, 169]]).2.length < 4 ∧
      step [] none ⟨1, [], [195, 169]⟩ (Tok.tok [195, 169]) =
        ([], .next ⟨2, [], [195, 169, 195, 169]⟩) :=
  ⟨by decide, by decide, by decide⟩

/-- Claim C7: for every terminating generation run, the final chunk
carries a non-`None` finish reason (`"stop"` or `"length"`) and every
chunk before it carries `None`, so the finish reason transitions exactly
once. -/
theorem c7_finishReasonStructure (stops : List Str) (mt : Option Int) (stream : List Tok)
    (h : (generate stops mt stream).2 = true) :
    ∃ pre t r, (generate stops mt stream).1 = pre ++ [(t, some r)] ∧
      (∀ c ∈ pre, c.2 = none) ∧ (r = "stop" ∨ r = "length") :=
  runGen_finStructure ⟨0, [], []⟩ stream h

/-- Witness for C7 on the terminating run with an immediate
end-of-sequence token. -/
theorem c7_finishReasonStructure_witness :
    ∃ pre t r, (generate [] none [Tok.eos]).1 = pre ++ [(t, some r)] ∧
      (∀ c ∈ pre, c.2 = none) ∧ (r = "stop" ∨ r = "length") :=
  c7_finishReasonStructure [] none [Tok.eos] rfl

/-- Claim C8: if the very first sampled token is the end-of-sequence
token, the run produces exactly one chunk, whose text is empty and whose
finish reason is `"stop"`. -/
theorem c8_immediateEos (stops : List Str) (mt : Option Int) (ts : List Tok) :
    generate stops mt (Tok.eos :: ts) = ([([], some "stop")], true) := rfl

/-- Claim C9: with an empty stop set the matcher is a no-op: the
full-match check never fires, the withholding length is always 0, each
iteration emits the whole accumulated text and keeps nothing, and a run
whose stream never signals end-of-sequence never finishes with reason
`"stop"`. -/
theorem c9_emptyStopsIdentity :
    (∀ text : Str, fullMatch [] text = none ∧ longestStopPrefixLen [] text = 0) ∧
      (∀ (mt : Option Int) (s : GState) (bs : List Nat),
        step ([] : List Str) mt s (.tok bs) =
          ((if stepText s bs = [] then [] else [(stepText s bs, none)]),
            if maxTokensHit mt (s.count + 1) then .finished [] "length"
            else .next ⟨s.count + 1, [], (utf8_split_incomplete (s.incomplete ++ bs)).2⟩)) ∧
      ∀ (mt : Option Int) (stream : List Tok), (∀ t ∈ stream, t ≠ Tok.eos) →
        ∀ c ∈ (generate [] mt stream).1, c.2 ≠ some "stop" :=
  ⟨fun text => ⟨fullMatch_nil text, rfl⟩, step_empty_stops,
    fun mt stream h => runGen_empty_stops_noStop mt ⟨0, [], []⟩ stream h⟩

/-- Witness for C9 at text `"a"` and a one-token stream. -/
theorem c9_emptyStopsIdentity_witness :
    (fullMatch [] ['a'] = none ∧ longestStopPrefixLen [] ['a'] = 0) ∧
      (['a'], some "stop") ∉ (generate [] none [Tok.tok [97]]).1 :=
  ⟨c9_emptyStopsIdentity.1 ['a'],
    fun hmem => c9_emptyStopsIdentity.2.2 none [Tok.tok [97]] (by decide) _ hmem rfl⟩

/-- Claim C10: when the full-match check terminates the loop, the final
chunk is the text before position `p` where `p` is the start of the
leftmost occurrence over all stop strings: some stop starts at `p` and no
stop starts at any earlier position; and the found start position depends
only on which strings are in the stop list, not on their order. -/
theorem c10_leftmostWins (stops : List Str) (mt : Option Int) (s : GState) (bs : List Nat)
    (cs : List Chunk) (ft : Str)
    (hstep : step stops mt s (.tok bs) = (cs, .finished ft "stop")) :
    ∃ p, ft = (stepText s bs).take p ∧
      (∃ stop ∈ stops, stop <+: (stepText s bs).drop p) ∧
      (∀ q, q < p → ∀ stop ∈ stops, ¬ stop <+: (stepText s bs).drop q) ∧
      ∀ stops2, (∀ x, x ∈ stops2 ↔ x ∈ stops) →
        stopMatchStart stops2 (stepText s bs) = stopMatchStart stops (stepText s bs) := by
  obtain ⟨p, hp, hft, hex, hmin⟩ := step_stop_leftmost hstep
  exact ⟨p, hft, hex, hmin, fun stops2 h2 => stopMatchStart_congr h2 (stepText s bs)⟩

/-- Witness for C10 at text `"xxabyyab"` with stops `["ab", "yy"]`: three
occurrences (`"ab"` at 2 and 6, `"yy"` at 4); the final chunk is the text
before the leftmost one, `"xx"`. -/
theorem c10_leftmostWins_witness :
    ∃ p, String.toList "xx" = (stepText ⟨0, String.toList "xxabyyab", []⟩ []).take p ∧
      (∃ stop ∈ [String.toList "ab", String.toList "yy"],
        stop <+: (stepText ⟨0, String.toList "xxabyyab", []⟩ []).drop p) ∧
      (∀ q, q < p → ∀ stop ∈ [String.toList "ab", String.toList "yy"],
        ¬ stop <+: (stepText ⟨0, String.toList "xxabyyab", []⟩ []).drop q) ∧
      ∀ stops2, (∀ x, x ∈ stops2 ↔ x ∈ [String.toList "ab", String.toList "yy"]) →
        stopMatchStart stops2 (stepText ⟨0, String.toList "xxabyyab", []⟩ []) =
          stopMatchStart [String.toList "ab", String.toList "yy"]
            (stepText ⟨0, String.toList "xxabyyab", []⟩ []) :=
  c10_leftmostWins [String.toList "ab", String.toList "yy"] none
    ⟨0, String.toList "xxabyyab", []⟩ [] [] (String.toList "xx") (by decide)

end Aipi
